import Mathlib

/-!
Shallow embedding of the RideSharingSimulation repository
(location.py, rider.py, driver.py, container.py, dispatcher.py,
event.py, simulation.py) and verification of its specification claims.

Python object references to mutable `Rider`/`Driver` objects are embedded
as natural-number references into heaps carried by the simulation state;
Python `None` becomes `Option.none`; a Python function that can raise an
uncaught exception, or that can return `None` where a list is expected,
returns an `Option` whose `none` models the aborting outcome.
-/

/-! ### location.py -/

/-- `Location` (location.py): a grid point with integer row and column. -/
structure Location where
  row : Int
  column : Int
deriving DecidableEq, Repr

/-- `manhattan_distance` (location.py): `|r2 - r1| + |c2 - c1|`. -/
def manhattan_distance (origin dest : Location) : Int :=
  |dest.row - origin.row| + |dest.column - origin.column|

/-! ### Python `round` on an integer quotient

`Driver.get_travel_time` computes `round(distance / speed)`.  Python's
`round` rounds to the nearest integer, halves to the even neighbour
(banker's rounding).  We embed it as the exact round-half-to-even of the
rational `n / m`; for `m = 0` Python raises `ZeroDivisionError`, an
unreachable case under the claims' hypotheses, embedded as `0`. -/

/-- Round-half-to-even of `n / m` for integers, as Python `round(n/m)`. -/
def pythonRound (n m : Int) : Int :=
  if m = 0 then 0
  else
    let m' := if m < 0 then -m else m
    let n' := if m < 0 then -n else n
    let f := n' / m'
    let r2 := 2 * (n' % m')
    if r2 < m' then f
    else if r2 > m' then f + 1
    else if f % 2 = 0 then f else f + 1

/-! ### rider.py -/

/-- The rider status constants `WAITING`, `CANCELLED`, `SATISFIED`
(rider.py). -/
inductive RStatus where
  | waiting
  | cancelled
  | satisfied
deriving DecidableEq, Repr

/-- `Rider` (rider.py): id, status, patience, origin, destination.
Only `status` is ever mutated. -/
structure RiderObj where
  id : String
  status : RStatus
  patience : Int
  origin : Location
  destination : Location
deriving DecidableEq, Repr

/-! ### driver.py

In Python both `location` and `destination` are attributes that may hold a
`Location` or `None` (`end_drive` assigns `self.location = self.destination`
with no check, so `location` can become `None`), hence both are `Option`s.
`__init__` always receives an actual location. -/

/-- `Driver` (driver.py). -/
structure DriverObj where
  id : String
  location : Option Location
  speed : Int
  destination : Option Location
deriving DecidableEq, Repr

/-- `Driver.__init__`: a fresh driver has the given location and no
destination. -/
def DriverObj.make (id : String) (loc : Location) (speed : Int) : DriverObj :=
  ⟨id, some loc, speed, none⟩

/-- `Driver.get_travel_time`: `round(manhattan_distance(location, dest) / speed)`.
`none` models the `AttributeError` Python raises when `self.location` is
`None`. -/
def DriverObj.get_travel_time (d : DriverObj) (dest : Location) : Option Int :=
  match d.location with
  | some l => some (pythonRound (manhattan_distance l dest) d.speed)
  | none => none

/-- `Driver.start_drive`: set `destination := location_argument`, return the
travel time (the updated driver and the returned value). -/
def DriverObj.start_drive (d : DriverObj) (loc : Location) :
    DriverObj × Option Int :=
  ({ d with destination := some loc }, d.get_travel_time loc)

/-- `Driver.end_drive`: `self.location = self.destination; self.destination = None`.
No precondition check is performed: with `destination = None` the
assignment still succeeds and `location` becomes `None`. -/
def DriverObj.end_drive (d : DriverObj) : DriverObj :=
  { d with location := d.destination, destination := none }

/-- `Driver.start_ride`: set `destination := rider.destination`, return the
travel time to it. -/
def DriverObj.start_ride (d : DriverObj) (r : RiderObj) :
    DriverObj × Option Int :=
  ({ d with destination := some r.destination }, d.get_travel_time r.destination)

/-- `Driver.end_ride`: `self.location = self.destination; self.destination = None`,
again with no precondition check. -/
def DriverObj.end_ride (d : DriverObj) : DriverObj :=
  { d with location := d.destination, destination := none }

/-- `Driver.is_idle`: true iff `destination` is `None`. -/
def DriverObj.is_idle (d : DriverObj) : Bool :=
  d.destination = none

/-! ### container.py: `PriorityQueue`

`items` is kept sorted; `remove` pops the front (`items.pop(0)`), returning
`None` when empty (the `IndexError` is caught).  `add` dequeues every item,
routing those with `current_item > item` to `low_priority` and the rest to
`high_priority` in traversal order, and rebuilds
`high_priority + [item] + low_priority`.  The items' rich comparisons are
embedded by a priority key (`Event.__gt__` compares timestamps). -/

/-- `PriorityQueue.remove`: pop the front item, or `None` if empty. -/
def pqRemove {α : Type} (items : List α) : Option α × List α :=
  match items with
  | [] => (none, [])
  | x :: xs => (some x, xs)

/-- `PriorityQueue.is_empty`. -/
def pqIsEmpty {α : Type} (items : List α) : Bool :=
  items.isEmpty

/-- `PriorityQueue.add`: the loop keeps, in traversal order, the items with
`current_item > item` as `low_priority` and the others as `high_priority`,
then sets `items := high_priority + [item] + low_priority`. -/
def pqAdd {α : Type} (key : α → Int) (items : List α) (item : α) : List α :=
  if items.isEmpty then [item]
  else
    (items.filter fun c => !decide (key c > key item)) ++ item ::
      (items.filter fun c => decide (key c > key item))

/-! ### monitor.py

No claim concerns the monitor's report, only that `notify` is called; the
activity log is embedded as a flat list of notifications in call order. -/

/-- The category constants `RIDER`, `DRIVER` (monitor.py). -/
inductive Category where
  | rider
  | driver
deriving DecidableEq, Repr

/-- The description constants `REQUEST`, `CANCEL`, `PICKUP`, `DROPOFF`
(monitor.py). -/
inductive Descr where
  | request
  | cancel
  | pickup
  | dropoff
deriving DecidableEq, Repr

/-- One `Monitor.notify` call: `(timestamp, category, description, id,
location)`.  The location argument is whatever expression the caller passes
(possibly a driver's `None` location). -/
structure Activity where
  time : Int
  category : Category
  descr : Descr
  id : String
  location : Option Location
deriving DecidableEq, Repr

/-! ### Simulation state

Python's mutable `Rider` and `Driver` objects are heap objects aliased by
events and by the dispatcher's lists; the embedding gives each object a
natural-number reference and carries the heaps in the state.  The
dispatcher's `drivers` (registered) and `waiting_riders` lists hold
references. -/

/-- The mutable state shared by the dispatcher, the monitor and all
event-held object references. -/
structure SimState where
  riders : Nat → RiderObj
  drivers : Nat → DriverObj
  registered : List Nat
  waiting : List Nat
  monitor : List Activity

/-- Update the rider object at reference `r`. -/
def SimState.setRider (s : SimState) (r : Nat) (obj : RiderObj) : SimState :=
  { s with riders := fun i => if i = r then obj else s.riders i }

/-- Update the driver object at reference `d`. -/
def SimState.setDriver (s : SimState) (d : Nat) (obj : DriverObj) : SimState :=
  { s with drivers := fun i => if i = d then obj else s.drivers i }

/-- `Monitor.notify`: append the activity to the log. -/
def SimState.notify (s : SimState) (a : Activity) : SimState :=
  { s with monitor := s.monitor ++ [a] }

/-! ### dispatcher.py -/

/-- The scan in `Dispatcher.request_driver`: walk the registered drivers in
registration order, and for each idle one record `(travel_time, driver)`.
`none` models the `AttributeError` raised when an idle driver's location is
`None`. -/
def availableScan (s : SimState) (origin : Location) :
    List Nat → Option (List (Int × Nat))
  | [] => some []
  | d :: ds =>
    if (s.drivers d).is_idle then
      match (s.drivers d).get_travel_time origin with
      | some t =>
        match availableScan s origin ds with
        | some rest => some ((t, d) :: rest)
        | none => none
      | none => none
    else availableScan s origin ds

/-- Python's stable `list.sort(key=lambda x: x[0])` on the
`(time, driver)` pairs, embedded as a stable insertion sort by the first
component: the head element is inserted before the first element of the
sorted tail whose key is not smaller, so elements with equal keys keep
their original relative order. -/
def stableInsert (x : Int × Nat) : List (Int × Nat) → List (Int × Nat)
  | [] => [x]
  | y :: ys => if x.1 ≤ y.1 then x :: y :: ys else y :: stableInsert x ys

/-- Stable sort by travel time, as Python's `sort` on `(time, driver)`
pairs keyed by the time. -/
def stableSortByTime : List (Int × Nat) → List (Int × Nat)
  | [] => []
  | x :: xs => stableInsert x (stableSortByTime xs)

/-- `Dispatcher.request_driver`: set the rider's status to waiting, collect
`(travel_time, driver)` for every idle registered driver; if none, append
the rider to the waiting list and return `None`; otherwise sort by time and
return the first driver.  The outer `none` models an uncaught exception
during the scan. -/
def requestDriver (s : SimState) (r : Nat) : Option (Option Nat × SimState) :=
  let s1 := s.setRider r { s.riders r with status := RStatus.waiting }
  match availableScan s1 (s1.riders r).origin s1.registered with
  | none => none
  | some avail =>
    if avail.isEmpty then
      some (none, { s1 with waiting := s1.waiting ++ [r] })
    else
      match stableSortByTime avail with
      | [] => some (none, { s1 with waiting := s1.waiting ++ [r] })
      | (_, d) :: _ => some (some d, s1)

/-- Membership of a driver in the dispatcher's registered list uses
`Driver.__eq__`, which compares ids. -/
def driverRegistered (s : SimState) (d : Nat) : Bool :=
  s.registered.any (fun d' => (s.drivers d').id = (s.drivers d).id)

/-- `Dispatcher.request_rider`: register the driver if no registered driver
has an equal id, then pop and return the head of the waiting list, or
`None` when it is empty. -/
def requestRider (s : SimState) (d : Nat) : Option Nat × SimState :=
  let s1 := if driverRegistered s d then s
            else { s with registered := s.registered ++ [d] }
  match s1.waiting with
  | [] => (none, s1)
  | r :: rest => (some r, { s1 with waiting := rest })

/-- Membership of a rider in the waiting list uses `Rider.__eq__`, which
compares ids. -/
def riderWaiting (s : SimState) (r : Nat) : Bool :=
  s.waiting.any (fun r' => (s.riders r').id = (s.riders r).id)

/-- `list.remove(rider)`: delete the first waiting entry whose rider
compares equal (same id). -/
def removeFirstById (s : SimState) (id : String) : List Nat → List Nat
  | [] => []
  | r :: rest =>
    if (s.riders r).id = id then rest else r :: removeFirstById s id rest

/-- `Dispatcher.cancel_ride`: remove the rider from the waiting list; the
`ValueError` when absent is caught (state unchanged). -/
def cancelRide (s : SimState) (r : Nat) : SimState :=
  { s with waiting := removeFirstById s (s.riders r).id s.waiting }

/-! ### event.py

Events hold references to the shared rider/driver objects.  `Event`
ordering compares timestamps (`__gt__` is `timestamp >`).  Each `do`
returns the list of spawned events; `none` models an uncaught exception or
the `None` that `Pickup.do` returns when neither branch is taken. -/

/-- The five concrete event classes of event.py. -/
inductive Ev where
  | riderRequest (t : Int) (r : Nat)
  | driverRequest (t : Int) (d : Nat)
  | cancellation (t : Int) (r : Nat)
  | pickup (t : Int) (r : Nat) (d : Nat)
  | dropoff (t : Int) (d : Nat) (r : Nat)
deriving DecidableEq, Repr

/-- `Event.timestamp`; all the rich comparisons compare it. -/
def Ev.timestamp : Ev → Int
  | .riderRequest t _ => t
  | .driverRequest t _ => t
  | .cancellation t _ => t
  | .pickup t _ _ => t
  | .dropoff t _ _ => t

/-- `RiderRequest.do`: notify, ask the dispatcher for a driver; if one is
assigned, the driver starts driving to the rider's origin and a `Pickup` at
`t + travel_time` is appended; a `Cancellation` at `t + patience` is always
appended. -/
def riderRequestDo (t : Int) (r : Nat) (s : SimState) :
    Option (List Ev × SimState) :=
  let s0 := s.notify ⟨t, Category.rider, Descr.request, (s.riders r).id,
    some (s.riders r).origin⟩
  match requestDriver s0 r with
  | none => none
  | some (none, s1) =>
    some ([Ev.cancellation (t + (s1.riders r).patience) r], s1)
  | some (some d, s1) =>
    let p := (s1.drivers d).start_drive (s1.riders r).origin
    let s2 := s1.setDriver d p.1
    match p.2 with
    | none => none
    | some tt =>
      some ([Ev.pickup (t + tt) r d,
             Ev.cancellation (t + (s2.riders r).patience) r], s2)

/-- `DriverRequest.do`: notify, ask the dispatcher for a rider; if one is
assigned, the driver starts driving to the rider's origin and a `Pickup` at
`t + travel_time` is returned. -/
def driverRequestDo (t : Int) (d : Nat) (s : SimState) :
    Option (List Ev × SimState) :=
  let s0 := s.notify ⟨t, Category.driver, Descr.request, (s.drivers d).id,
    (s.drivers d).location⟩
  match requestRider s0 d with
  | (none, s1) => some ([], s1)
  | (some r, s1) =>
    let p := (s1.drivers d).start_drive (s1.riders r).origin
    let s2 := s1.setDriver d p.1
    match p.2 with
    | none => none
    | some tt => some ([Ev.pickup (t + tt) r d], s2)

/-- `Cancellation.do`: no-op for a satisfied rider; otherwise remove the
rider from the waiting list if present, set the status to cancelled and
notify.  No event is spawned. -/
def cancellationDo (t : Int) (r : Nat) (s : SimState) :
    Option (List Ev × SimState) :=
  if (s.riders r).status = RStatus.satisfied then some ([], s)
  else
    let s1 := if riderWaiting s r then cancelRide s r else s
    let s2 := s1.setRider r { s1.riders r with status := RStatus.cancelled }
    some ([], s2.notify ⟨t, Category.rider, Descr.cancel, (s2.riders r).id,
      some (s2.riders r).origin⟩)

/-- `Pickup.do`: the driver always ends its drive; for a waiting rider the
ride starts (a `Dropoff` at `t + travel_time` is spawned, the rider becomes
satisfied, both actors are notified); for a cancelled rider a
`DriverRequest` at `t` is spawned; for a satisfied rider the Python method
returns `None` (no branch taken). -/
def pickupDo (t : Int) (r : Nat) (d : Nat) (s : SimState) :
    Option (List Ev × SimState) :=
  let s0 := s.setDriver d (s.drivers d).end_drive
  match (s0.riders r).status with
  | RStatus.waiting =>
    let p := (s0.drivers d).start_ride (s0.riders r)
    let s1 := s0.setDriver d p.1
    match p.2 with
    | none => none
    | some tt =>
      let s2 := s1.setRider r { s1.riders r with status := RStatus.satisfied }
      let s3 := (s2.notify ⟨t, Category.driver, Descr.pickup,
          (s2.drivers d).id, (s2.drivers d).location⟩).notify
        ⟨t, Category.rider, Descr.pickup, (s2.riders r).id,
          some (s2.riders r).origin⟩
      some ([Ev.dropoff (t + tt) d r], s3)
  | RStatus.cancelled =>
    some ([Ev.driverRequest t d],
      s0.notify ⟨t, Category.driver, Descr.request, (s0.drivers d).id,
        (s0.drivers d).location⟩)
  | RStatus.satisfied => none

/-- `Dropoff.do`: the driver ends the ride, both actors are notified, and a
`DriverRequest` at `t` is spawned. -/
def dropoffDo (t : Int) (d : Nat) (r : Nat) (s : SimState) :
    Option (List Ev × SimState) :=
  let s0 := s.setDriver d (s.drivers d).end_ride
  let s1 := (s0.notify ⟨t, Category.driver, Descr.dropoff, (s0.drivers d).id,
      (s0.drivers d).location⟩).notify
    ⟨t, Category.rider, Descr.dropoff, (s0.riders r).id,
      some (s0.riders r).destination⟩
  let s2 := s1.notify ⟨t, Category.driver, Descr.request, (s1.drivers d).id,
    (s1.drivers d).location⟩
  some ([Ev.driverRequest t d], s2)

/-- Dynamic dispatch of `Event.do`. -/
def doEvent : Ev → SimState → Option (List Ev × SimState)
  | .riderRequest t r, s => riderRequestDo t r s
  | .driverRequest t d, s => driverRequestDo t d s
  | .cancellation t r, s => cancellationDo t r s
  | .pickup t r d, s => pickupDo t r d s
  | .dropoff t d r, s => dropoffDo t d r s

/-! ### simulation.py -/

/-- The loop of `Simulation.run`: while the queue is non-empty, remove the
front event, do it, and add every spawned event.  The result is the trace
of dequeued timestamps in processing order; an exception inside `do` (or a
`None` result, on which `len(next_events)` raises) stops the run.  Fuel
makes the recursion structural; any run is a prefix of a long-enough fueled
run. -/
def runLoop : Nat → List Ev → SimState → List Int
  | 0, _, _ => []
  | fuel + 1, queue, s =>
    match pqRemove queue with
    | (none, _) => []
    | (some e, rest) =>
      match doEvent e s with
      | none => [e.timestamp]
      | some (evs, s') =>
        e.timestamp :: runLoop fuel (evs.foldl (pqAdd Ev.timestamp) rest) s'

/-- `Simulation.run`: add all initial events to the priority queue, then
loop; the returned value is the trace of processed timestamps. -/
def runSim (fuel : Nat) (initial : List Ev) (s : SimState) : List Int :=
  runLoop fuel (initial.foldl (pqAdd Ev.timestamp) []) s

/-! ### Helper lemmas: Python rounding is nearest-integer rounding -/

/-- Auxiliary form of `pythonRound` for a positive divisor, with the lets
flattened for reasoning. -/
def pythonRoundPos (n m : Int) : Int :=
  if 2 * (n % m) < m then n / m
  else if 2 * (n % m) > m then n / m + 1
  else if (n / m) % 2 = 0 then n / m else n / m + 1

theorem pythonRound_eq_pos (n m : Int) (hm : 0 < m) :
    pythonRound n m = pythonRoundPos n m := by
  rw [pythonRound, pythonRoundPos, if_neg hm.ne']
  simp only [if_neg (by omega : ¬ m < 0)]

theorem pythonRoundPos_nearest (n m : Int) (hm : 0 < m) :
    |2 * (n - pythonRoundPos n m * m)| ≤ m := by
  have h1 : m * (n / m) + n % m = n := Int.ediv_add_emod n m
  have h2 : 0 ≤ n % m := Int.emod_nonneg n hm.ne'
  have h3 : n % m < m := Int.emod_lt_of_pos n hm
  rw [pythonRoundPos, abs_le]
  split_ifs <;> constructor <;> nlinarith [h1, h2, h3]

/-- `pythonRound n m` is a nearest integer to the rational `n / m`:
the distance `|n/m - result|` is at most `1/2`, cleared of denominators. -/
theorem pythonRound_nearest (n m : Int) (hm : 0 < m) :
    |2 * (n - pythonRound n m * m)| ≤ m := by
  rw [pythonRound_eq_pos n m hm]
  exact pythonRoundPos_nearest n m hm

theorem pythonRound_nonneg (n m : Int) (hn : 0 ≤ n) (hm : 0 < m) :
    0 ≤ pythonRound n m := by
  have h2 : 0 ≤ n % m := Int.emod_nonneg n hm.ne'
  have h4 : 0 ≤ n / m := Int.ediv_nonneg hn hm.le
  rw [pythonRound_eq_pos n m hm, pythonRoundPos]
  split_ifs <;> omega

theorem manhattan_nonneg (a b : Location) : 0 ≤ manhattan_distance a b := by
  have h1 : 0 ≤ |b.row - a.row| := abs_nonneg _
  have h2 : 0 ≤ |b.column - a.column| := abs_nonneg _
  rw [manhattan_distance]; omega

/-! ### Claim theorems -/

/-- C8: `PriorityQueue.remove` on an empty queue signals the empty
condition by returning the sentinel `None` — which is distinct from the
result `some x` produced for any actually stored element `x` — and the
queue remains empty. -/
theorem pq_remove_empty_sentinel (α : Type) :
    pqRemove ([] : List α) = (none, []) ∧
      ∀ x : α, (none : Option α) ≠ some x := by
  exact ⟨rfl, fun x h => Option.noConfusion h⟩

/-- C5 (counterexample): calling `end_drive` on a driver whose destination
is not set does not abort: it completes normally, silently setting the
driver's location to the unset destination (`None`). -/
theorem end_drive_no_dest_counterexample :
    DriverObj.end_drive ⟨"Atom", some ⟨0, 0⟩, 1, none⟩ =
      ⟨"Atom", none, 1, none⟩ := rfl

/-- C5 (amended): `end_drive` and `end_ride` perform no precondition
check: on a driver with no destination they complete silently, leaving the
driver with `location = None` (a poisoned state) and no destination,
rather than failing with a diagnostic. -/
theorem end_drive_end_ride_silent (d : DriverObj)
    (h : d.destination = none) :
    d.end_drive = { d with location := none } ∧
      d.end_ride = { d with location := none } := by
  rw [DriverObj.end_drive, DriverObj.end_ride, h]
  exact ⟨rfl, rfl⟩

theorem end_drive_end_ride_silent_witness :
    DriverObj.end_drive ⟨"Atom", some ⟨0, 0⟩, 1, none⟩ =
        ⟨"Atom", none, 1, none⟩ ∧
      DriverObj.end_ride ⟨"Atom", some ⟨0, 0⟩, 1, none⟩ =
        ⟨"Atom", none, 1, none⟩ :=
  end_drive_end_ride_silent ⟨"Atom", some ⟨0, 0⟩, 1, none⟩ rfl

/-- C9: for a driver with a location and positive speed,
`get_travel_time(dest)` returns the Manhattan distance from the driver's
location to `dest` divided by the speed, rounded to a nearest integer
(`|2 * (distance - result * speed)| ≤ speed`, i.e. the error is at most a
half). -/
theorem travel_time_nearest (d : DriverObj) (dest l : Location)
    (hl : d.location = some l) (hs : 0 < d.speed) :
    ∃ tt : Int, d.get_travel_time dest = some tt ∧
      |2 * (manhattan_distance l dest - tt * d.speed)| ≤ d.speed := by
  refine ⟨pythonRound (manhattan_distance l dest) d.speed, ?_, ?_⟩
  · rw [DriverObj.get_travel_time, hl]
  · exact pythonRound_nearest _ _ hs

/-- C9 witness: the driver at `(0,0)` with speed 1 going to `(5,8)`:
travel time is exactly 13. -/
theorem travel_time_nearest_witness :
    (∃ tt : Int,
        (DriverObj.make "Atom" ⟨0, 0⟩ 1).get_travel_time ⟨5, 8⟩ = some tt ∧
          |2 * (manhattan_distance ⟨0, 0⟩ ⟨5, 8⟩ -
            tt * (DriverObj.make "Atom" ⟨0, 0⟩ 1).speed)| ≤
            (DriverObj.make "Atom" ⟨0, 0⟩ 1).speed) ∧
      (DriverObj.make "Atom" ⟨0, 0⟩ 1).get_travel_time ⟨5, 8⟩ = some 13 :=
  ⟨travel_time_nearest (DriverObj.make "Atom" ⟨0, 0⟩ 1) ⟨5, 8⟩ ⟨0, 0⟩ rfl
    (by decide), rfl⟩

/-! ### Priority queue lemmas -/

/-- `pqAdd` stores exactly the old items plus the new one. -/
theorem pqAdd_perm {α : Type} (key : α → Int) (q : List α) (a : α) :
    (pqAdd key q a).Perm (a :: q) := by
  rw [pqAdd]
  split_ifs with h
  · rw [List.isEmpty_iff] at h
    subst h
    rfl
  · have hp := List.filter_append_perm (fun c => !decide (key c > key a)) q
    simp only [Bool.not_not] at hp
    exact List.perm_middle.trans (hp.cons a)

/-- `pqAdd` preserves any pairwise relation `R` for which the new item
inserts correctly: items not greater than it relate to it on the left,
strictly greater items on the right, and across the split. -/
theorem pqAdd_pairwise {α : Type} (key : α → Int) (R : α → α → Prop)
    (q : List α) (a : α) (hq : q.Pairwise R)
    (hlow : ∀ x ∈ q, ¬ key x > key a → R x a)
    (hhigh : ∀ y ∈ q, key y > key a → R a y)
    (hcross : ∀ x ∈ q, ∀ y ∈ q, ¬ key x > key a → key y > key a → R x y) :
    (pqAdd key q a).Pairwise R := by
  rw [pqAdd]
  split_ifs with h
  · exact List.pairwise_singleton R a
  · rw [List.pairwise_append]
    refine ⟨hq.sublist (List.filter_sublist q), ?_, ?_⟩
    · rw [List.pairwise_cons]
      refine ⟨fun y hy => ?_, hq.sublist (List.filter_sublist q)⟩
      rw [List.mem_filter, decide_eq_true_eq] at hy
      exact hhigh y hy.1 hy.2
    · intro x hx b hb
      rw [List.mem_filter, Bool.not_eq_true', decide_eq_false_iff_not] at hx
      rcases List.mem_cons.mp hb with rfl | hb
      · exact hlow x hx.1 hx.2
      · rw [List.mem_filter, decide_eq_true_eq] at hb
        exact hcross x hx.1 b hb.1 hx.2 hb.2

/-! ### C1: insertion order and removal order

Items are tagged with their insertion index so the FIFO tie-break is
expressible: `pqTagLt a b` says `a` has strictly smaller priority than
`b`, or equal priority and an earlier insertion tag. -/

/-- Strict-priority-or-earlier-insertion order on `(tag, priority)`
pairs. -/
def pqTagLt (a b : Nat × Int) : Prop :=
  a.2 < b.2 ∨ (a.2 = b.2 ∧ a.1 < b.1)

/-- Insert the priorities `ps` into the queue `q` by successive
`PriorityQueue.add` calls, tagging each with its insertion index starting
at `n`. -/
def pqAddTagged (n : Nat) (q : List (Nat × Int)) : List Int → List (Nat × Int)
  | [] => q
  | p :: ps => pqAddTagged (n + 1) (pqAdd Prod.snd q (n, p)) ps

/-- The insertion sequence `ps` tagged with indices from `n`. -/
def tagFrom (n : Nat) : List Int → List (Nat × Int)
  | [] => []
  | p :: ps => (n, p) :: tagFrom (n + 1) ps

/-- Successive `PriorityQueue.remove` calls until empty: each call pops
the front item (`pqRemove (x :: xs) = (some x, xs)`), so the removal
sequence is the item list itself. -/
def pqDrain {α : Type} (q : List α) : List α :=
  match h : pqRemove q with
  | (none, _) => []
  | (some x, rest) => x :: pqDrain rest
termination_by q.length
decreasing_by
  cases q with
  | nil => simp [pqRemove] at h
  | cons y ys =>
    simp only [pqRemove, Prod.mk.injEq] at h
    simp [← h.2]

theorem pqDrain_id {α : Type} (q : List α) : pqDrain q = q := by
  induction q with
  | nil => rw [pqDrain]; simp [pqRemove]
  | cons x xs ih => rw [pqDrain]; simpa [pqRemove] using ih

/-- Invariant of the tagged insertion sequence: the queue holds exactly
the inserted items, is sorted by `pqTagLt`, and all tags are below the
next fresh tag. -/
theorem pqAddTagged_invariant (ps : List Int) :
    ∀ (n : Nat) (q : List (Nat × Int)), q.Pairwise pqTagLt →
      (∀ x ∈ q, x.1 < n) →
      (pqAddTagged n q ps).Perm (q ++ tagFrom n ps) ∧
        (pqAddTagged n q ps).Pairwise pqTagLt ∧
        ∀ x ∈ pqAddTagged n q ps, x.1 < n + ps.length := by
  induction ps with
  | nil =>
    intro n q hq ht
    refine ⟨by simp [pqAddTagged, tagFrom], hq, fun x hx => ?_⟩
    simpa using ht x hx
  | cons p ps ih =>
    intro n q hq ht
    have hperm := pqAdd_perm Prod.snd q (n, p)
    have hq' : (pqAdd Prod.snd q (n, p)).Pairwise pqTagLt := by
      refine pqAdd_pairwise Prod.snd pqTagLt q (n, p) hq ?_ ?_ ?_
      · intro x hx hle
        rcases lt_or_eq_of_le (not_lt.mp hle) with hlt | heq
        · exact Or.inl hlt
        · exact Or.inr ⟨heq, ht x hx⟩
      · intro y _ hgt
        exact Or.inl hgt
      · intro x hx y hy hle hgt
        exact Or.inl (lt_of_le_of_lt (not_lt.mp hle) hgt)
    have ht' : ∀ x ∈ pqAdd Prod.snd q (n, p), x.1 < n + 1 := by
      intro x hx
      rcases List.mem_cons.mp (hperm.mem_iff.mp hx) with rfl | hx
      · omega
      · exact Nat.lt_succ_of_lt (ht x hx)
    obtain ⟨hp1, hp2, hp3⟩ := ih (n + 1) (pqAdd Prod.snd q (n, p)) hq' ht'
    refine ⟨?_, hp2, ?_⟩
    · show (pqAddTagged (n + 1) (pqAdd Prod.snd q (n, p)) ps).Perm
        (q ++ (n, p) :: tagFrom (n + 1) ps)
      exact hp1.trans ((hperm.append_right _).trans List.perm_middle.symm)
    · intro x hx
      have := hp3 x hx
      simp only [List.length_cons]
      omega

/-- C1: for every sequence of priorities inserted by successive `add`
calls into an initially empty `PriorityQueue` (each item tagged with its
insertion index), the successive `remove` calls yield exactly the stored
items, in non-decreasing priority order, and among items of equal
priority in insertion (FIFO) order. -/
theorem pq_insert_then_remove_order (ps : List Int) :
    (pqDrain (pqAddTagged 0 [] ps)).Perm (tagFrom 0 ps) ∧
      (pqDrain (pqAddTagged 0 [] ps)).Pairwise
        (fun a b => a.2 < b.2 ∨ (a.2 = b.2 ∧ a.1 < b.1)) := by
  obtain ⟨h1, h2, _⟩ :=
    pqAddTagged_invariant ps 0 [] (List.Pairwise.nil) (by simp)
  rw [pqDrain_id]
  exact ⟨by simpa using h1, h2⟩

/-! ### State projection lemmas -/

@[simp] theorem setRider_riders_same (s : SimState) (r : Nat) (o : RiderObj) :
    (s.setRider r o).riders r = o := by
  simp [SimState.setRider]

@[simp] theorem setRider_riders_other (s : SimState) (r i : Nat) (o : RiderObj)
    (h : i ≠ r) : (s.setRider r o).riders i = s.riders i := by
  simp [SimState.setRider, h]

@[simp] theorem setRider_drivers (s : SimState) (r : Nat) (o : RiderObj) :
    (s.setRider r o).drivers = s.drivers := rfl

@[simp] theorem setRider_registered (s : SimState) (r : Nat) (o : RiderObj) :
    (s.setRider r o).registered = s.registered := rfl

@[simp] theorem setRider_waiting (s : SimState) (r : Nat) (o : RiderObj) :
    (s.setRider r o).waiting = s.waiting := rfl

@[simp] theorem setDriver_drivers_same (s : SimState) (d : Nat) (o : DriverObj) :
    (s.setDriver d o).drivers d = o := by
  simp [SimState.setDriver]

@[simp] theorem setDriver_drivers_other (s : SimState) (d i : Nat) (o : DriverObj)
    (h : i ≠ d) : (s.setDriver d o).drivers i = s.drivers i := by
  simp [SimState.setDriver, h]

@[simp] theorem setDriver_riders (s : SimState) (d : Nat) (o : DriverObj) :
    (s.setDriver d o).riders = s.riders := rfl

@[simp] theorem setDriver_registered (s : SimState) (d : Nat) (o : DriverObj) :
    (s.setDriver d o).registered = s.registered := rfl

@[simp] theorem setDriver_waiting (s : SimState) (d : Nat) (o : DriverObj) :
    (s.setDriver d o).waiting = s.waiting := rfl

@[simp] theorem notify_riders (s : SimState) (a : Activity) :
    (s.notify a).riders = s.riders := rfl

@[simp] theorem notify_drivers (s : SimState) (a : Activity) :
    (s.notify a).drivers = s.drivers := rfl

@[simp] theorem notify_registered (s : SimState) (a : Activity) :
    (s.notify a).registered = s.registered := rfl

@[simp] theorem notify_waiting (s : SimState) (a : Activity) :
    (s.notify a).waiting = s.waiting := rfl

/-! ### C6: `Dispatcher.request_driver` -/

/-- The idle registered drivers, in registration order. -/
def idleRegistered (s : SimState) : List Nat :=
  s.registered.filter fun d' => (s.drivers d').is_idle

/-- The travel time of driver `d'` to `o` (defined when the driver has a
location; the default is irrelevant under the claims' hypotheses). -/
def timeTo (s : SimState) (o : Location) (d' : Nat) : Int :=
  ((s.drivers d').get_travel_time o).getD 0

/-- Under the hypothesis that idle drivers have locations, the scan
collects `(travel_time, driver)` for exactly the idle registered drivers,
in registration order. -/
theorem availableScan_ok (s : SimState) (o : Location) :
    ∀ regs : List Nat,
      (∀ d' ∈ regs, (s.drivers d').is_idle = true →
        (s.drivers d').location ≠ none) →
      availableScan s o regs =
        some ((regs.filter fun d' => (s.drivers d').is_idle).map
          fun d' => (timeTo s o d', d')) := by
  intro regs
  induction regs with
  | nil => intro _; rfl
  | cons d ds ih =>
    intro h
    rw [availableScan]
    by_cases hid : (s.drivers d).is_idle = true
    · obtain ⟨l, hl⟩ : ∃ l, (s.drivers d).location = some l := by
        cases hll : (s.drivers d).location with
        | none => exact absurd hll (h d (List.mem_cons_self d ds) hid)
        | some l => exact ⟨l, rfl⟩
      rw [if_pos hid, ih (fun x hx => h x (List.mem_cons_of_mem d hx))]
      rw [DriverObj.get_travel_time, hl]
      simp [List.filter_cons, hid, timeTo, DriverObj.get_travel_time, hl]
    · rw [if_neg hid, ih (fun x hx => h x (List.mem_cons_of_mem d hx))]
      simp [List.filter_cons, hid]

/-- The head of the stable sort is the leftmost minimum: the input splits
as `l₁ ++ y :: l₂` where everything before `y` has a strictly larger key
and everything after has a key at least as large. -/
theorem stableSort_head (l : List (Int × Nat)) (hne : l ≠ []) :
    ∃ y rest, stableSortByTime l = y :: rest ∧
      ∃ l₁ l₂, l = l₁ ++ y :: l₂ ∧
        (∀ x ∈ l₁, y.1 < x.1) ∧ (∀ x ∈ l₂, y.1 ≤ x.1) := by
  induction l with
  | nil => exact absurd rfl hne
  | cons a l ih =>
    cases l with
    | nil =>
      exact ⟨a, [], rfl, [], [], rfl, by simp, by simp⟩
    | cons b l' =>
      obtain ⟨y', rest', hsort, l₁', l₂', hsplit, h₁', h₂'⟩ :=
        ih (List.cons_ne_nil b l')
      have hmin : ∀ x ∈ b :: l', y'.1 ≤ x.1 := by
        intro x hx
        rw [hsplit] at hx
        rcases List.mem_append.mp hx with hx | hx
        · exact (h₁' x hx).le
        · rcases List.mem_cons.mp hx with rfl | hx
          · exact le_refl _
          · exact h₂' x hx
      rw [stableSortByTime, hsort, stableInsert]
      by_cases hc : a.1 ≤ y'.1
      · rw [if_pos hc]
        refine ⟨a, y' :: rest', rfl, [], b :: l', rfl, by simp, ?_⟩
        exact fun x hx => hc.trans (hmin x hx)
      · rw [if_neg hc]
        refine ⟨y', stableInsert a rest', rfl, a :: l₁', l₂', ?_, ?_, h₂'⟩
        · rw [List.cons_append, hsplit]
        · intro x hx
          rcases List.mem_cons.mp hx with rfl | hx
          · omega
          · exact h₁' x hx

/-- Split an equation `F.map g = A₁ ++ y :: A₂` along the decomposition. -/
theorem map_eq_append_cons_split {g : Nat → Int × Nat} :
    ∀ (F : List Nat) (A₁ : List (Int × Nat)) (y : Int × Nat)
      (A₂ : List (Int × Nat)), F.map g = A₁ ++ y :: A₂ →
      ∃ F₁ x F₂, F = F₁ ++ x :: F₂ ∧ F₁.map g = A₁ ∧ g x = y ∧
        F₂.map g = A₂ := by
  intro F
  induction F with
  | nil => intro A₁ y A₂ h; simp at h
  | cons f F ih =>
    intro A₁ y A₂ h
    cases A₁ with
    | nil =>
      simp only [List.map_cons, List.nil_append, List.cons.injEq] at h
      exact ⟨[], f, F, rfl, rfl, h.1, h.2⟩
    | cons a A₁' =>
      simp only [List.map_cons, List.cons_append, List.cons.injEq] at h
      obtain ⟨F₁, x, F₂, hF, hm₁, hgx, hm₂⟩ := ih A₁' y A₂ h.2
      exact ⟨f :: F₁, x, F₂, by rw [List.cons_append, hF], by simp [h.1, hm₁],
        hgx, hm₂⟩

/-- C6: `request_driver` sets the rider's status to waiting and touches no
other object; when some registered driver is idle it returns the idle
registered driver with minimal travel time to the rider's origin, ties
broken by registration order (everything earlier in the idle-registration
list is strictly slower), leaving the waiting list, the registered list
and every driver untouched; when no registered driver is idle it appends
the rider to the waiting list and returns `None`.  The hypothesis that
idle registered drivers have a location rules out the (exception-raising)
poisoned states of C5. -/
theorem request_driver_spec (s : SimState) (r : Nat)
    (hloc : ∀ d' ∈ s.registered, (s.drivers d').is_idle = true →
      (s.drivers d').location ≠ none) :
    ∃ res s', requestDriver s r = some (res, s') ∧
      (s'.riders r).status = RStatus.waiting ∧
      (∀ i, i ≠ r → s'.riders i = s.riders i) ∧
      s'.drivers = s.drivers ∧
      s'.registered = s.registered ∧
      (idleRegistered s = [] →
        res = none ∧ s'.waiting = s.waiting ++ [r]) ∧
      (idleRegistered s ≠ [] →
        s'.waiting = s.waiting ∧
        ∃ dstar F₁ F₂, res = some dstar ∧
          idleRegistered s = F₁ ++ dstar :: F₂ ∧
          (∀ x ∈ F₁, timeTo s (s.riders r).origin dstar <
            timeTo s (s.riders r).origin x) ∧
          (∀ x ∈ F₂, timeTo s (s.riders r).origin dstar ≤
            timeTo s (s.riders r).origin x)) := by
  have hscan : availableScan
      (s.setRider r { s.riders r with status := RStatus.waiting })
      (s.riders r).origin s.registered =
      some ((idleRegistered s).map
        fun d' => (timeTo s (s.riders r).origin d', d')) :=
    availableScan_ok _ _ s.registered hloc
  rw [requestDriver]
  simp only [setRider_registered, setRider_riders_same]
  rw [show ({ s.riders r with status := RStatus.waiting } : RiderObj).origin
      = (s.riders r).origin from rfl, hscan]
  dsimp only
  by_cases hF : idleRegistered s = []
  · rw [hF]
    refine ⟨none, _, rfl, ?_, ?_, rfl, rfl, fun _ => ⟨rfl, rfl⟩,
      fun hne => absurd rfl hne⟩
    · simp
    · intro i hi; simp [hi]
  · have hne : (idleRegistered s).map
        (fun d' => (timeTo s (s.riders r).origin d', d')) ≠ [] := by
      simpa using hF
    obtain ⟨y, rest, hsort, A₁, A₂, hAsplit, hA₁, hA₂⟩ :=
      stableSort_head _ hne
    obtain ⟨t, dstar⟩ := y
    obtain ⟨F₁, x, F₂, hFsplit, hm₁, hgx, hm₂⟩ :=
      map_eq_append_cons_split (idleRegistered s) A₁ (t, dstar) A₂ hAsplit
    obtain ⟨rfl, rfl⟩ : t = timeTo s (s.riders r).origin x ∧ dstar = x := by
      have h1 := congrArg Prod.fst hgx
      have h2 := congrArg Prod.snd hgx
      exact ⟨h1.symm, h2.symm⟩
    have hAe : ((idleRegistered s).map
        (fun d' => (timeTo s (s.riders r).origin d', d'))).isEmpty = false := by
      cases hA : (idleRegistered s).map
          (fun d' => (timeTo s (s.riders r).origin d', d')) with
      | nil => exact absurd hA hne
      | cons a l => rfl
    rw [hAe, if_neg Bool.false_ne_true, hsort]
    refine ⟨some dstar, _, rfl, ?_, ?_, rfl, rfl, fun h => absurd h hF,
      fun _ => ⟨rfl, dstar, F₁, F₂, rfl, hFsplit, ?_, ?_⟩⟩
    · simp
    · intro i hi; simp [hi]
    · intro z hz
      have : (timeTo s (s.riders r).origin z, z) ∈ A₁ := by
        rw [← hm₁]
        exact List.mem_map_of_mem _ hz
      exact hA₁ _ this
    · intro z hz
      have : (timeTo s (s.riders r).origin z, z) ∈ A₂ := by
        rw [← hm₂]
        exact List.mem_map_of_mem _ hz
      exact hA₂ _ this

/-- A concrete one-rider, one-registered-idle-driver state (the doctest
scenario of dispatcher.py). -/
def state6 : SimState :=
  ⟨fun _ => ⟨"Bathe", RStatus.waiting, 5, ⟨1, 2⟩, ⟨5, 8⟩⟩,
   fun _ => DriverObj.make "Atom" ⟨0, 0⟩ 1, [0], [], []⟩

theorem request_driver_spec_witness :
    ∃ res s', requestDriver state6 0 = some (res, s') ∧
      (s'.riders 0).status = RStatus.waiting ∧
      res = some 0 ∧ s'.waiting = [] := by
  obtain ⟨res, s', h1, h2, -, -, -, -, h7⟩ :=
    request_driver_spec state6 0
      (by intro d' _ _; simp [state6, DriverObj.make])
  obtain ⟨hw, dstar, F₁, F₂, hres, hsplit, -, -⟩ :=
    h7 (by simp [idleRegistered, state6, DriverObj.make, DriverObj.is_idle])
  have hd : dstar = 0 := by
    have hmem : dstar ∈ idleRegistered state6 := by
      rw [hsplit]
      exact List.mem_append.mpr (Or.inr (List.mem_cons_self _ _))
    have : idleRegistered state6 = [0] := by
      simp [idleRegistered, state6, DriverObj.make, DriverObj.is_idle]
    rw [this] at hmem
    simpa using hmem
  exact ⟨res, s', h1, h2, by rw [hres, hd], hw⟩

/-- C7: `request_rider` registers an unregistered driver exactly once —
after one call, and still after a second call with the same driver, the
known-drivers list has exactly one entry equal (by id) to it — and it pops
and returns the head of the FIFO waiting list when one exists, or returns
`None` (while still registering the new driver) when the waiting list is
empty.  Rider and driver objects are never modified. -/
theorem request_rider_spec (s : SimState) (d : Nat)
    (hnew : ∀ d' ∈ s.registered, (s.drivers d').id ≠ (s.drivers d).id) :
    (requestRider s d).2.drivers = s.drivers ∧
    (requestRider s d).2.riders = s.riders ∧
    ((requestRider s d).2.registered.filter
      (fun d' => (s.drivers d').id = (s.drivers d).id)).length = 1 ∧
    ((requestRider (requestRider s d).2 d).2.registered.filter
      (fun d' => (s.drivers d').id = (s.drivers d).id)).length = 1 ∧
    (s.waiting = [] → (requestRider s d).1 = none ∧
      (requestRider s d).2.waiting = [] ∧
      (requestRider s d).2.registered = s.registered ++ [d]) ∧
    (∀ r rest, s.waiting = r :: rest → (requestRider s d).1 = some r ∧
      (requestRider s d).2.waiting = rest ∧
      (requestRider s d).2.registered = s.registered ++ [d]) := by
  have hreg : driverRegistered s d = false := by
    rw [driverRegistered, List.any_eq_false]
    intro d' hd'
    simpa using hnew d' hd'
  have hfilter : (s.registered.filter
      (fun d' => (s.drivers d').id = (s.drivers d).id)) = [] := by
    rw [List.filter_eq_nil_iff]
    intro d' hd'
    simpa using hnew d' hd'
  have hcount : ((s.registered ++ [d]).filter
      (fun d' => (s.drivers d').id = (s.drivers d).id)).length = 1 := by
    rw [List.filter_append, hfilter]
    simp
  cases hw : s.waiting with
  | nil =>
    have h1 : requestRider s d =
        (none, { s with registered := s.registered ++ [d] }) := by
      rw [requestRider, hreg]
      simp [hw]
    have hreg2 : driverRegistered
        { s with registered := s.registered ++ [d] } d = true := by
      rw [driverRegistered, List.any_eq_true]
      exact ⟨d, by simp, by simp⟩
    have h2 : requestRider { s with registered := s.registered ++ [d] } d =
        (none, { s with registered := s.registered ++ [d] }) := by
      rw [requestRider, hreg2]
      simp [hw]
    rw [h1]
    refine ⟨rfl, rfl, hcount, ?_, fun _ => ⟨rfl, hw, rfl⟩,
      fun r rest hcon => List.noConfusion hcon⟩
    rw [h2]
    exact hcount
  | cons r rest =>
    have h1 : requestRider s d = (some r,
        { s with registered := s.registered ++ [d], waiting := rest }) := by
      rw [requestRider, hreg]
      simp [hw]
    have hreg2 : driverRegistered
        { s with registered := s.registered ++ [d], waiting := rest } d
        = true := by
      rw [driverRegistered, List.any_eq_true]
      exact ⟨d, by simp, by simp⟩
    have h2 : (requestRider
        { s with registered := s.registered ++ [d], waiting := rest }
        d).2.registered = s.registered ++ [d] := by
      rw [requestRider, hreg2]
      cases rest <;> simp
    rw [h1]
    refine ⟨rfl, rfl, hcount, ?_, fun hcon => List.noConfusion hcon,
      fun r' rest' hr => ?_⟩
    · rw [h2]
      exact hcount
    · obtain ⟨rfl, rfl⟩ : r' = r ∧ rest' = rest := by
        injection hr with a b; exact ⟨a.symm, b.symm⟩
      exact ⟨rfl, rfl, rfl⟩

/-- A concrete state with one waiting rider and an unregistered driver
(the doctest scenario of `Dispatcher.request_rider`). -/
def state7 : SimState :=
  ⟨fun _ => ⟨"Bathe", RStatus.waiting, 5, ⟨1, 2⟩, ⟨5, 8⟩⟩,
   fun _ => DriverObj.make "Atom" ⟨10, 9⟩ 1, [], [0], []⟩

theorem request_rider_spec_witness :
    ((requestRider state7 0).2.registered.filter
      (fun d' => (state7.drivers d').id = (state7.drivers 0).id)).length = 1 ∧
    ((requestRider (requestRider state7 0).2 0).2.registered.filter
      (fun d' => (state7.drivers d').id = (state7.drivers 0).id)).length = 1 ∧
    (requestRider state7 0).1 = some 0 := by
  obtain ⟨-, -, h3, h4, -, h6⟩ :=
    request_rider_spec state7 0 (by intro d' hd'; simp [state7] at hd')
  exact ⟨h3, h4, (h6 0 [] rfl).1⟩

/-- `Pickup.do` on a cancelled rider: the driver ends the drive, a
`DriverRequest` at the pickup's timestamp is spawned, and the rider stays
cancelled. -/
theorem pickupDo_cancelled (t : Int) (r d : Nat) (u : SimState)
    (hc : (u.riders r).status = RStatus.cancelled) :
    ∃ s2, pickupDo t r d u = some ([Ev.driverRequest t d], s2) ∧
      (s2.riders r).status = RStatus.cancelled := by
  have hrd : ((u.setDriver d (u.drivers d).end_drive).riders r).status
      = (u.riders r).status := by simp
  rw [pickupDo, hrd, hc]
  exact ⟨_, rfl, by simp [hc]⟩

/-- C2: if a `Cancellation` for a not-yet-satisfied rider is processed at
`t1` and afterwards a `Pickup` for the same rider and any driver is
processed at `t2 > t1`, the rider is cancelled (not satisfied) after the
Pickup, the Pickup spawns exactly a `DriverRequest` for that driver with
timestamp `t2`, and no `Dropoff` is emitted. -/
theorem cancellation_then_pickup_race (t1 t2 : Int) (r d : Nat)
    (s : SimState) (hlt : t1 < t2)
    (hst : (s.riders r).status ≠ RStatus.satisfied) :
    ∃ s1, cancellationDo t1 r s = some ([], s1) ∧
      (s1.riders r).status = RStatus.cancelled ∧
      ∃ s2, pickupDo t2 r d s1 = some ([Ev.driverRequest t2 d], s2) ∧
        (s2.riders r).status = RStatus.cancelled ∧
        (s2.riders r).status ≠ RStatus.satisfied ∧
        ∀ t' d' r', Ev.dropoff t' d' r' ∉ [Ev.driverRequest t2 d] := by
  rw [cancellationDo, if_neg hst]
  set u := if riderWaiting s r then cancelRide s r else s with hu
  set v := u.setRider r { u.riders r with status := RStatus.cancelled }
    with hv
  have hst1 : ((v.notify ⟨t1, Category.rider, Descr.cancel, (v.riders r).id,
      some (v.riders r).origin⟩).riders r).status = RStatus.cancelled := by
    simp [hv]
  refine ⟨_, rfl, hst1, ?_⟩
  obtain ⟨s2, h1, h2⟩ := pickupDo_cancelled t2 r d _ hst1
  refine ⟨s2, h1, h2, ?_, fun t' d' r' hmem => by simp at hmem⟩
  rw [h2]
  intro hcon
  exact RStatus.noConfusion hcon

/-- A state whose rider 0 is waiting (for the C2 witness scenario the
rider is initially waiting) and whose driver 0 is driving to the rider's
origin. -/
def state2 : SimState :=
  ⟨fun _ => ⟨"Bathe", RStatus.waiting, 5, ⟨1, 2⟩, ⟨5, 8⟩⟩,
   fun _ => ⟨"Atom", some ⟨0, 0⟩, 1, some ⟨1, 2⟩⟩, [0], [], []⟩

theorem cancellation_then_pickup_race_witness :
    ∃ s1, cancellationDo 5 0 state2 = some ([], s1) ∧
      (s1.riders 0).status = RStatus.cancelled ∧
      ∃ s2, pickupDo 6 0 0 s1 = some ([Ev.driverRequest 6 0], s2) ∧
        (s2.riders 0).status = RStatus.cancelled ∧
        (s2.riders 0).status ≠ RStatus.satisfied ∧
        ∀ t' d' r', Ev.dropoff t' d' r' ∉ [Ev.driverRequest 6 0] :=
  cancellation_then_pickup_race 5 6 0 0 state2 (by norm_num)
    (by intro h; exact RStatus.noConfusion h)

/-- A state whose rider 0 is already satisfied when a Pickup fires. -/
def state3 : SimState :=
  ⟨fun _ => ⟨"Bathe", RStatus.satisfied, 5, ⟨1, 2⟩, ⟨5, 8⟩⟩,
   fun _ => ⟨"Atom", some ⟨0, 0⟩, 1, some ⟨1, 2⟩⟩, [0], [], []⟩

/-- C3 (counterexample): processing a `Pickup` for a rider whose status is
satisfied does not return a one-event list: `Pickup.do` falls through both
branches and returns `None`. -/
theorem pickup_satisfied_counterexample :
    pickupDo 4 0 0 state3 = none := rfl

/-- C3 (amended): `Pickup.do` returns exactly one event when the rider's
status is waiting — a `Dropoff` at `t + rideTime`, provided the driver has
a destination (every scheduled Pickup's driver does) — or when the status
is cancelled — a `DriverRequest` at `t`; but for a satisfied rider it
returns `None` instead of a list. -/
theorem pickup_one_event (t : Int) (r d : Nat) (s : SimState) :
    ((s.riders r).status = RStatus.waiting →
      ∀ p, (s.drivers d).destination = some p →
      (pickupDo t r d s).map Prod.fst =
        some [Ev.dropoff (t + pythonRound
          (manhattan_distance p (s.riders r).destination)
          (s.drivers d).speed) d r]) ∧
    ((s.riders r).status = RStatus.cancelled →
      (pickupDo t r d s).map Prod.fst = some [Ev.driverRequest t d]) ∧
    ((s.riders r).status = RStatus.satisfied →
      pickupDo t r d s = none) := by
  have hrd : ((s.setDriver d (s.drivers d).end_drive).riders r).status
      = (s.riders r).status := by simp
  refine ⟨?_, ?_, ?_⟩
  · intro hw p hp
    rw [pickupDo, hrd, hw]
    have hdrv : (s.setDriver d (s.drivers d).end_drive).drivers d
        = (s.drivers d).end_drive := by simp
    rw [hdrv]
    rw [DriverObj.start_ride, DriverObj.get_travel_time, DriverObj.end_drive]
    simp only [hp]
    rfl
  · intro hc
    rw [pickupDo, hrd, hc]
    rfl
  · intro hs
    rw [pickupDo, hrd, hs]

theorem pickup_one_event_witness :
    ((state2.riders 0).status = RStatus.waiting →
      ∀ p, (state2.drivers 0).destination = some p →
      (pickupDo 4 0 0 state2).map Prod.fst =
        some [Ev.dropoff (4 + pythonRound
          (manhattan_distance p (state2.riders 0).destination)
          (state2.drivers 0).speed) 0 0]) ∧
    (pickupDo 4 0 0 state2).map Prod.fst = some [Ev.dropoff 14 0 0] := by
  refine ⟨(pickup_one_event 4 0 0 state2).1, ?_⟩
  have h := (pickup_one_event 4 0 0 state2).1 rfl ⟨1, 2⟩ rfl
  exact h.trans (by rfl)

/-- `Dispatcher.request_rider` never modifies rider or driver objects. -/
theorem requestRider_riders (u : SimState) (d : Nat) :
    (requestRider u d).2.riders = u.riders ∧
      (requestRider u d).2.drivers = u.drivers := by
  rw [requestRider]
  by_cases h : driverRegistered u d
  · simp only [h, if_true]
    cases u.waiting <;> exact ⟨rfl, rfl⟩
  · simp only [h, if_false]
    cases hw : u.waiting <;> exact ⟨rfl, rfl⟩

/-- `DriverRequest.do` never modifies rider objects. -/
theorem driverRequestDo_riders (t : Int) (d : Nat) (s : SimState)
    (evs : List Ev) (s' : SimState)
    (hdo : driverRequestDo t d s = some (evs, s')) :
    s'.riders = s.riders := by
  rw [driverRequestDo] at hdo
  rcases hq : requestRider (s.notify ⟨t, Category.driver, Descr.request,
      (s.drivers d).id, (s.drivers d).location⟩) d with ⟨orr, s1⟩
  have hs1 : s1.riders = s.riders := by
    have h := (requestRider_riders (s.notify ⟨t, Category.driver,
      Descr.request, (s.drivers d).id, (s.drivers d).location⟩) d).1
    rw [hq] at h
    exact h
  rw [hq] at hdo
  cases orr with
  | none =>
    obtain ⟨-, rfl⟩ : evs = [] ∧ s1 = s' := by
      injection hdo with h1
      injection h1 with h2 h3
      exact ⟨h2.symm, h3⟩
    exact hs1
  | some r =>
    dsimp only at hdo
    cases hgt : (s1.drivers d).get_travel_time ((s1.riders r).origin) with
    | none =>
      rw [DriverObj.start_drive, hgt] at hdo
      exact Option.noConfusion hdo
    | some tt =>
      rw [DriverObj.start_drive, hgt] at hdo
      obtain ⟨-, rfl⟩ : [Ev.pickup (t + tt) r d] = evs ∧ _ = s' := by
        injection hdo with h1
        injection h1 with h2 h3
        exact ⟨h2, h3⟩
      rw [setDriver_riders]
      exact hs1

/-- `Dropoff.do` never modifies rider objects. -/
theorem dropoffDo_riders (t : Int) (d r : Nat) (s : SimState)
    (evs : List Ev) (s' : SimState)
    (hdo : dropoffDo t d r s = some (evs, s')) :
    s'.riders = s.riders := by
  rw [dropoffDo] at hdo
  obtain ⟨-, rfl⟩ : [Ev.driverRequest t d] = evs ∧ _ = s' := by
    injection hdo with h1
    injection h1 with h2 h3
    exact ⟨h2, h3⟩
  rfl

/-- `Cancellation.do` leaves every rider unchanged except possibly setting
the cancelled rider's status to cancelled. -/
theorem cancellationDo_riders (t : Int) (r : Nat) (s : SimState)
    (evs : List Ev) (s' : SimState)
    (hdo : cancellationDo t r s = some (evs, s')) :
    ∀ i, s'.riders i = s.riders i ∨
      (i = r ∧ (s'.riders i).status = RStatus.cancelled) := by
  rw [cancellationDo] at hdo
  by_cases hsat : (s.riders r).status = RStatus.satisfied
  · rw [if_pos hsat] at hdo
    obtain ⟨-, rfl⟩ : [] = evs ∧ s = s' := by
      injection hdo with h1
      injection h1 with h2 h3
      exact ⟨h2, h3⟩
    exact fun i => Or.inl rfl
  · rw [if_neg hsat] at hdo
    have hcr : (if riderWaiting s r then cancelRide s r else s).riders
        = s.riders := by
      split_ifs <;> rfl
    obtain ⟨-, rfl⟩ : [] = evs ∧ _ = s' := by
      injection hdo with h1
      injection h1 with h2 h3
      exact ⟨h2, h3⟩
    intro i
    by_cases hir : i = r
    · subst hir
      exact Or.inr ⟨rfl, by simp⟩
    · exact Or.inl (by simp [hir, hcr])
  
/-- `Pickup.do` leaves every rider unchanged except possibly setting the
picked-up rider's status to satisfied. -/
theorem pickupDo_riders (t : Int) (r d : Nat) (s : SimState)
    (evs : List Ev) (s' : SimState)
    (hdo : pickupDo t r d s = some (evs, s')) :
    ∀ i, s'.riders i = s.riders i ∨
      (i = r ∧ (s'.riders i).status = RStatus.satisfied) := by
  rw [pickupDo] at hdo
  have hrs : (s.setDriver d (s.drivers d).end_drive).riders = s.riders := by
    simp
  rw [hrs] at hdo
  cases hst : (s.riders r).status with
  | waiting =>
    rw [hst] at hdo
    dsimp only at hdo
    cases hgt : ((s.setDriver d (s.drivers d).end_drive).drivers d).get_travel_time
        ((s.riders r).destination) with
    | none =>
      rw [DriverObj.start_ride, hgt] at hdo
      exact Option.noConfusion hdo
    | some tt =>
      rw [DriverObj.start_ride, hgt] at hdo
      obtain ⟨-, rfl⟩ : _ = evs ∧ _ = s' := by
        injection hdo with h1
        injection h1 with h2 h3
        exact ⟨h2, h3⟩
      intro i
      by_cases hir : i = r
      · subst hir
        exact Or.inr ⟨rfl, by simp⟩
      · exact Or.inl (by simp [hir, hrs])
  | cancelled =>
    rw [hst] at hdo
    obtain ⟨-, rfl⟩ : _ = evs ∧ _ = s' := by
      injection hdo with h1
      injection h1 with h2 h3
      exact ⟨h2, h3⟩
    intro i
    exact Or.inl (by simp [hrs])
  | satisfied =>
    rw [hst] at hdo
    exact Option.noConfusion hdo

/-- A state whose rider 0 has already cancelled. -/
def state4 : SimState :=
  ⟨fun _ => ⟨"Bathe", RStatus.cancelled, 5, ⟨1, 2⟩, ⟨5, 8⟩⟩,
   fun _ => DriverObj.make "Atom" ⟨0, 0⟩ 1, [], [], []⟩

/-- C4 (counterexample): `Dispatcher.request_driver` sets the rider's
status to waiting unconditionally, so calling it on a rider whose status
is cancelled moves that rider back to waiting — cancelled is not
terminal under `request_driver`. -/
theorem request_driver_resets_cancelled_counterexample :
    (state4.riders 0).status = RStatus.cancelled ∧
      ∃ res s', requestDriver state4 0 = some (res, s') ∧
        (s'.riders 0).status = RStatus.waiting := by
  exact ⟨rfl, none, _, rfl, rfl⟩

/-- C4 (amended): for every event transition other than a `RiderRequest`
(whose `do` calls `request_driver`, which resets the status to waiting),
a rider whose status is cancelled or satisfied never returns to waiting:
`Cancellation.do`, `Pickup.do`, `DriverRequest.do` and `Dropoff.do`
preserve the terminality of the two final statuses. -/
theorem terminal_status_event_transitions (e : Ev) (s : SimState)
    (hnot : ∀ t r, e ≠ Ev.riderRequest t r) :
    ∀ evs s', doEvent e s = some (evs, s') → ∀ i,
      ((s.riders i).status = RStatus.cancelled ∨
        (s.riders i).status = RStatus.satisfied) →
      (s'.riders i).status ≠ RStatus.waiting := by
  intro evs s' hdo i hterm
  have hne : (s.riders i).status ≠ RStatus.waiting := by
    rcases hterm with h | h <;> rw [h] <;> intro hc <;>
      exact RStatus.noConfusion hc
  cases e with
  | riderRequest t r => exact absurd rfl (hnot t r)
  | driverRequest t d =>
    rw [driverRequestDo_riders t d s evs s' hdo]
    exact hne
  | cancellation t r =>
    rcases cancellationDo_riders t r s evs s' hdo i with h | ⟨-, h⟩
    · rw [h]; exact hne
    · rw [h]; intro hc; exact RStatus.noConfusion hc
  | pickup t r d =>
    rcases pickupDo_riders t r d s evs s' hdo i with h | ⟨-, h⟩
    · rw [h]; exact hne
    · rw [h]; intro hc; exact RStatus.noConfusion hc
  | dropoff t d r =>
    rw [dropoffDo_riders t d r s evs s' hdo]
    exact hne

theorem terminal_status_event_transitions_witness :
    ∃ evs s', doEvent (Ev.cancellation 9 0) state4 = some (evs, s') ∧
      (s'.riders 0).status ≠ RStatus.waiting := by
  refine ⟨[], _, rfl, ?_⟩
  exact terminal_status_event_transitions (Ev.cancellation 9 0) state4
    (fun t r h => Ev.noConfusion h) [] _ rfl 0 (Or.inl rfl)

/-! ### C10: events are processed in non-decreasing timestamp order -/

/-- Every rider object in the heap has non-negative patience. -/
def ridersOK (s : SimState) : Prop :=
  ∀ i, 0 ≤ (s.riders i).patience

/-- Every driver object in the heap has positive speed. -/
def driversOK (s : SimState) : Prop :=
  ∀ i, 0 < (s.drivers i).speed

theorem get_travel_time_nonneg (d : DriverObj) (o : Location) (tt : Int)
    (h : d.get_travel_time o = some tt) (hs : 0 < d.speed) : 0 ≤ tt := by
  rw [DriverObj.get_travel_time] at h
  cases hl : d.location with
  | none => rw [hl] at h; exact Option.noConfusion h
  | some l =>
    rw [hl] at h
    injection h with h
    rw [← h]
    exact pythonRound_nonneg _ _ (manhattan_nonneg l o) hs

/-- `Dispatcher.request_driver` never modifies driver objects and changes
riders only by status (patience is preserved). -/
theorem requestDriver_preserves (s : SimState) (r : Nat) (res : Option Nat)
    (s' : SimState) (hdo : requestDriver s r = some (res, s')) :
    s'.drivers = s.drivers ∧
      (∀ i, (s'.riders i).patience = (s.riders i).patience) := by
  rw [requestDriver] at hdo
  have hpat : ∀ i, ((s.setRider r { s.riders r with
      status := RStatus.waiting }).riders i).patience
      = (s.riders i).patience := by
    intro i
    by_cases hir : i = r
    · subst hir; simp
    · simp [hir]
  cases hscan : availableScan
      (s.setRider r { s.riders r with status := RStatus.waiting })
      ((s.setRider r { s.riders r with status := RStatus.waiting }).riders
        r).origin
      (s.setRider r { s.riders r with status := RStatus.waiting }).registered
      with
  | none => rw [hscan] at hdo; exact Option.noConfusion hdo
  | some avail =>
    rw [hscan] at hdo
    dsimp only at hdo
    by_cases he : avail.isEmpty
    · rw [if_pos he] at hdo
      obtain ⟨-, rfl⟩ : none = res ∧ _ = s' := by
        injection hdo with h1
        injection h1 with h2 h3
        exact ⟨h2, h3⟩
      exact ⟨rfl, hpat⟩
    · rw [if_neg he] at hdo
      cases hs : stableSortByTime avail with
      | nil =>
        rw [hs] at hdo
        obtain ⟨-, rfl⟩ : none = res ∧ _ = s' := by
          injection hdo with h1
          injection h1 with h2 h3
          exact ⟨h2, h3⟩
        exact ⟨rfl, hpat⟩
      | cons y ys =>
        obtain ⟨ty, dy⟩ := y
        rw [hs] at hdo
        obtain ⟨-, rfl⟩ : some dy = res ∧ _ = s' := by
          injection hdo with h1
          injection h1 with h2 h3
          exact ⟨h2, h3⟩
        exact ⟨rfl, hpat⟩

theorem setDriver_speed (s : SimState) (d : Nat) (o : DriverObj)
    (ho : o.speed = (s.drivers d).speed) (i : Nat) :
    ((s.setDriver d o).drivers i).speed = (s.drivers i).speed := by
  by_cases hid : i = d
  · subst hid; simp [ho]
  · simp [hid]

theorem setRider_patience (s : SimState) (r : Nat) (o : RiderObj)
    (ho : o.patience = (s.riders r).patience) (i : Nat) :
    ((s.setRider r o).riders i).patience = (s.riders i).patience := by
  by_cases hir : i = r
  · subst hir; simp [ho]
  · simp [hir]

/-- `Dropoff.do` preserves the heap invariants and spawns only the
`DriverRequest` at its own timestamp. -/
theorem dropoffDo_step (t : Int) (d r : Nat) (s : SimState) (evs : List Ev)
    (s' : SimState) (hdo : dropoffDo t d r s = some (evs, s'))
    (hr : ridersOK s) (hd : driversOK s) :
    ridersOK s' ∧ driversOK s' ∧ ∀ e' ∈ evs, t ≤ e'.timestamp := by
  rw [dropoffDo] at hdo
  obtain ⟨hev, rfl⟩ : [Ev.driverRequest t d] = evs ∧ _ = s' := by
    injection hdo with h1
    injection h1 with h2 h3
    exact ⟨h2, h3⟩
  refine ⟨?_, ?_, ?_⟩
  · intro i
    simp only [notify_riders, setDriver_riders]
    exact hr i
  · intro i
    simp only [notify_drivers]
    rw [setDriver_speed s d ((s.drivers d).end_ride) rfl i]
    exact hd i
  · intro e' he'
    rw [← hev] at he'
    rcases List.mem_singleton.mp he' with rfl
    exact le_refl t

/-- `Cancellation.do` preserves the heap invariants and spawns nothing. -/
theorem cancellationDo_step (t : Int) (r : Nat) (s : SimState)
    (evs : List Ev) (s' : SimState)
    (hdo : cancellationDo t r s = some (evs, s'))
    (hr : ridersOK s) (hd : driversOK s) :
    ridersOK s' ∧ driversOK s' ∧ ∀ e' ∈ evs, t ≤ e'.timestamp := by
  rw [cancellationDo] at hdo
  by_cases hsat : (s.riders r).status = RStatus.satisfied
  · rw [if_pos hsat] at hdo
    obtain ⟨hev, rfl⟩ : ([] : List Ev) = evs ∧ s = s' := by
      injection hdo with h1
      injection h1 with h2 h3
      exact ⟨h2, h3⟩
    exact ⟨hr, hd, fun e' he' => by rw [← hev] at he'; simp at he'⟩
  · rw [if_neg hsat] at hdo
    have hcr : (if riderWaiting s r then cancelRide s r else s).riders
        = s.riders := by
      split_ifs <;> rfl
    have hcd : (if riderWaiting s r then cancelRide s r else s).drivers
        = s.drivers := by
      split_ifs <;> rfl
    obtain ⟨hev, rfl⟩ : ([] : List Ev) = evs ∧ _ = s' := by
      injection hdo with h1
      injection h1 with h2 h3
      exact ⟨h2, h3⟩
    refine ⟨?_, ?_, fun e' he' => by rw [← hev] at he'; simp at he'⟩
    · intro i
      simp only [notify_riders]
      rw [setRider_patience (if riderWaiting s r then cancelRide s r else s)
        r { (if riderWaiting s r then cancelRide s r else s).riders r with
          status := RStatus.cancelled } rfl i, congrFun hcr i]
      exact hr i
    · intro i
      simp only [notify_drivers, setRider_drivers]
      rw [congrFun hcd i]
      exact hd i

/-- Setting a rider's status never changes any rider's patience. -/
theorem setRider_status_patience (u : SimState) (r : Nat) (st : RStatus)
    (i : Nat) :
    ((u.setRider r { u.riders r with status := st }).riders i).patience
      = (u.riders i).patience :=
  setRider_patience u r { u.riders r with status := st } rfl i

/-- `Pickup.do` preserves the heap invariants and spawns only a `Dropoff`
at `t + travel_time` (waiting rider) or a `DriverRequest` at `t`
(cancelled rider). -/
theorem pickupDo_step (t : Int) (r d : Nat) (s : SimState) (evs : List Ev)
    (s' : SimState) (hdo : pickupDo t r d s = some (evs, s'))
    (hr : ridersOK s) (hd : driversOK s) :
    ridersOK s' ∧ driversOK s' ∧ ∀ e' ∈ evs, t ≤ e'.timestamp := by
  rw [pickupDo] at hdo
  have hrs : (s.setDriver d (s.drivers d).end_drive).riders = s.riders := by
    simp
  rw [hrs] at hdo
  cases hst : (s.riders r).status with
  | waiting =>
    rw [hst] at hdo
    dsimp only at hdo
    cases hgt : ((s.setDriver d (s.drivers d).end_drive).drivers
        d).get_travel_time ((s.riders r).destination) with
    | none =>
      rw [DriverObj.start_ride, hgt] at hdo
      exact Option.noConfusion hdo
    | some tt =>
      rw [DriverObj.start_ride, hgt] at hdo
      obtain ⟨hev, rfl⟩ : [Ev.dropoff (t + tt) d r] = evs ∧ _ = s' := by
        injection hdo with h1
        injection h1 with h2 h3
        exact ⟨h2, h3⟩
      have hsp0 : ∀ i, ((s.setDriver d (s.drivers d).end_drive).drivers
          i).speed = (s.drivers i).speed :=
        setDriver_speed s d ((s.drivers d).end_drive) rfl
      refine ⟨?_, ?_, ?_⟩
      · intro i
        simp only [notify_riders]
        rw [setRider_status_patience]
        simp only [setDriver_riders]
        exact hr i
      · intro i
        simp only [notify_drivers, setRider_drivers]
        rw [setDriver_speed (s.setDriver d (s.drivers d).end_drive) d
          { (s.setDriver d (s.drivers d).end_drive).drivers d with
            destination := some ((s.riders r).destination) } rfl i, hsp0 i]
        exact hd i
      · intro e' he'
        rw [← hev] at he'
        rcases List.mem_singleton.mp he' with rfl
        have htt : 0 ≤ tt := by
          refine get_travel_time_nonneg _ _ tt hgt ?_
          rw [hsp0 d]
          exact hd d
        simp only [Ev.timestamp]
        omega
  | cancelled =>
    rw [hst] at hdo
    obtain ⟨hev, rfl⟩ : [Ev.driverRequest t d] = evs ∧ _ = s' := by
      injection hdo with h1
      injection h1 with h2 h3
      exact ⟨h2, h3⟩
    refine ⟨?_, ?_, ?_⟩
    · intro i
      simp only [notify_riders]
      rw [congrFun hrs i]
      exact hr i
    · intro i
      simp only [notify_drivers]
      rw [setDriver_speed s d ((s.drivers d).end_drive) rfl i]
      exact hd i
    · intro e' he'
      rw [← hev] at he'
      rcases List.mem_singleton.mp he' with rfl
      exact le_refl t
  | satisfied =>
    rw [hst] at hdo
    exact Option.noConfusion hdo

/-- `RiderRequest.do` preserves the heap invariants and spawns only a
`Pickup` at `t + travel_time` (when matched) and a `Cancellation` at
`t + patience`. -/
theorem riderRequestDo_step (t : Int) (r : Nat) (s : SimState)
    (evs : List Ev) (s' : SimState)
    (hdo : riderRequestDo t r s = some (evs, s'))
    (hr : ridersOK s) (hd : driversOK s) :
    ridersOK s' ∧ driversOK s' ∧ ∀ e' ∈ evs, t ≤ e'.timestamp := by
  rw [riderRequestDo] at hdo
  cases hq : requestDriver (s.notify ⟨t, Category.rider, Descr.request,
      (s.riders r).id, some (s.riders r).origin⟩) r with
  | none => rw [hq] at hdo; exact Option.noConfusion hdo
  | some p =>
    obtain ⟨od, s1⟩ := p
    obtain ⟨hdrv, hpat⟩ := requestDriver_preserves _ r od s1 hq
    rw [hq] at hdo
    cases od with
    | none =>
      dsimp only at hdo
      obtain ⟨hev, rfl⟩ :
          [Ev.cancellation (t + (s1.riders r).patience) r] = evs ∧
            s1 = s' := by
        injection hdo with h1
        injection h1 with h2 h3
        exact ⟨h2, h3⟩
      refine ⟨fun i => by rw [hpat i]; exact hr i,
        fun i => by rw [congrFun hdrv i]; exact hd i, ?_⟩
      intro e' he'
      rw [← hev] at he'
      rcases List.mem_singleton.mp he' with rfl
      have hp : 0 ≤ (s1.riders r).patience := by rw [hpat r]; exact hr r
      simp only [Ev.timestamp]
      omega
    | some d =>
      dsimp only at hdo
      cases hgt : (s1.drivers d).get_travel_time ((s1.riders r).origin) with
      | none =>
        rw [DriverObj.start_drive, hgt] at hdo
        exact Option.noConfusion hdo
      | some tt =>
        rw [DriverObj.start_drive, hgt] at hdo
        injection hdo with h1
        injection h1 with h2 h3
        subst h3
        refine ⟨?_, ?_, ?_⟩
        · intro i
          simp only [setDriver_riders]
          rw [hpat i]
          exact hr i
        · intro i
          rw [setDriver_speed s1 d { s1.drivers d with
            destination := some ((s1.riders r).origin) } rfl i,
            congrFun hdrv i]
          exact hd i
        · intro e' he'
          rw [← h2] at he'
          have htt : 0 ≤ tt := by
            refine get_travel_time_nonneg _ _ tt hgt ?_
            rw [congrFun hdrv d]
            exact hd d
          have hp : 0 ≤ ((s1.setDriver d { s1.drivers d with
              destination := some ((s1.riders r).origin) }).riders
              r).patience := by
            rw [setDriver_riders, hpat r]
            exact hr r
          rcases List.mem_cons.mp he' with rfl | he'
          · simp only [Ev.timestamp]; omega
          · rcases List.mem_singleton.mp he' with rfl
            simp only [Ev.timestamp]
            rw [setDriver_riders] at hp ⊢
            omega

/-- `DriverRequest.do` preserves the heap invariants and spawns only a
`Pickup` at `t + travel_time` when a rider is assigned. -/
theorem driverRequestDo_step (t : Int) (d : Nat) (s : SimState)
    (evs : List Ev) (s' : SimState)
    (hdo : driverRequestDo t d s = some (evs, s'))
    (hr : ridersOK s) (hd : driversOK s) :
    ridersOK s' ∧ driversOK s' ∧ ∀ e' ∈ evs, t ≤ e'.timestamp := by
  rw [driverRequestDo] at hdo
  rcases hq : requestRider (s.notify ⟨t, Category.driver, Descr.request,
      (s.drivers d).id, (s.drivers d).location⟩) d with ⟨orr, s1⟩
  obtain ⟨hrid, hdrv⟩ := requestRider_riders (s.notify ⟨t, Category.driver,
    Descr.request, (s.drivers d).id, (s.drivers d).location⟩) d
  rw [hq] at hrid hdrv
  rw [hq] at hdo
  cases orr with
  | none =>
    dsimp only at hdo
    obtain ⟨hev, rfl⟩ : ([] : List Ev) = evs ∧ s1 = s' := by
      injection hdo with h1
      injection h1 with h2 h3
      exact ⟨h2, h3⟩
    refine ⟨fun i => by rw [congrFun hrid i]; exact hr i,
      fun i => by rw [congrFun hdrv i]; exact hd i, ?_⟩
    intro e' he'
    rw [← hev] at he'
    simp at he'
  | some r =>
    dsimp only at hdo
    cases hgt : (s1.drivers d).get_travel_time ((s1.riders r).origin) with
    | none =>
      rw [DriverObj.start_drive, hgt] at hdo
      exact Option.noConfusion hdo
    | some tt =>
      rw [DriverObj.start_drive, hgt] at hdo
      obtain ⟨hev, rfl⟩ : [Ev.pickup (t + tt) r d] = evs ∧ _ = s' := by
        injection hdo with h1
        injection h1 with h2 h3
        exact ⟨h2, h3⟩
      refine ⟨?_, ?_, ?_⟩
      · intro i
        simp only [setDriver_riders]
        rw [congrFun hrid i]
        exact hr i
      · intro i
        rw [setDriver_speed s1 d { s1.drivers d with
          destination := some ((s1.riders r).origin) } rfl i,
          congrFun hdrv i]
        exact hd i
      · intro e' he'
        rw [← hev] at he'
        rcases List.mem_singleton.mp he' with rfl
        have htt : 0 ≤ tt := by
          refine get_travel_time_nonneg _ _ tt hgt ?_
          rw [congrFun hdrv d]
          exact hd d
        simp only [Ev.timestamp]
        omega

/-- One simulation step: a successful `do` preserves the heap invariants
and spawns only events with timestamps at least its own. -/
theorem doEvent_step (e : Ev) (s : SimState) (evs : List Ev) (s' : SimState)
    (hdo : doEvent e s = some (evs, s'))
    (hr : ridersOK s) (hd : driversOK s) :
    ridersOK s' ∧ driversOK s' ∧
      ∀ e' ∈ evs, e.timestamp ≤ e'.timestamp := by
  cases e with
  | riderRequest t r => exact riderRequestDo_step t r s evs s' hdo hr hd
  | driverRequest t d => exact driverRequestDo_step t d s evs s' hdo hr hd
  | cancellation t r => exact cancellationDo_step t r s evs s' hdo hr hd
  | pickup t r d => exact pickupDo_step t r d s evs s' hdo hr hd
  | dropoff t d r => exact dropoffDo_step t d r s evs s' hdo hr hd

/-- Event ordering (`Event.__le__`): timestamp comparison. -/
def evLe (a b : Ev) : Prop := a.timestamp ≤ b.timestamp

theorem pqAdd_evLe (q : List Ev) (a : Ev) (hq : q.Pairwise evLe) :
    (pqAdd Ev.timestamp q a).Pairwise evLe := by
  refine pqAdd_pairwise Ev.timestamp evLe q a hq ?_ ?_ ?_
  · intro x _ hx
    exact not_lt.mp hx
  · intro y _ hy
    exact le_of_lt hy
  · intro x _ y _ hx hy
    exact le_trans (not_lt.mp hx) (le_of_lt hy)

theorem foldl_pqAdd_pairwise (evs : List Ev) :
    ∀ q : List Ev, q.Pairwise evLe →
      (evs.foldl (pqAdd Ev.timestamp) q).Pairwise evLe := by
  induction evs with
  | nil => intro q hq; exact hq
  | cons e es ih => intro q hq; exact ih _ (pqAdd_evLe q e hq)

theorem foldl_pqAdd_mem (evs : List Ev) :
    ∀ (q : List Ev) (x : Ev), x ∈ evs.foldl (pqAdd Ev.timestamp) q →
      x ∈ q ∨ x ∈ evs := by
  induction evs with
  | nil => intro q x hx; exact Or.inl hx
  | cons e es ih =>
    intro q x hx
    rcases ih _ x hx with hx' | hx'
    · rcases List.mem_cons.mp
        ((pqAdd_perm Ev.timestamp q e).mem_iff.mp hx') with rfl | h
      · exact Or.inr (List.mem_cons_self _ _)
      · exact Or.inl h
    · exact Or.inr (List.mem_cons_of_mem _ hx')

/-- The simulation loop's trace is non-decreasing and bounded below by any
lower bound of the queue, provided the queue is sorted and the heap
invariants hold. -/
theorem runLoop_mono (fuel : Nat) :
    ∀ (q : List Ev) (s : SimState), ridersOK s → driversOK s →
      q.Pairwise evLe →
      (runLoop fuel q s).Chain' (· ≤ ·) ∧
        ∀ c : Int, (∀ x ∈ q, c ≤ x.timestamp) →
          ∀ u ∈ runLoop fuel q s, c ≤ u := by
  induction fuel with
  | zero =>
    intro q s _ _ _
    exact ⟨List.chain'_nil, fun c _ u hu => by simp [runLoop] at hu⟩
  | succ n ih =>
    intro q s hr hd hq
    cases q with
    | nil =>
      have hrun : runLoop (n + 1) [] s = [] := by
        rw [runLoop]
        dsimp only [pqRemove]
      rw [hrun]
      exact ⟨List.chain'_nil, fun c _ u hu => by simp at hu⟩
    | cons e rest =>
      cases hdo : doEvent e s with
      | none =>
        have hrun : runLoop (n + 1) (e :: rest) s = [e.timestamp] := by
          rw [runLoop]
          dsimp only [pqRemove]
          rw [hdo]
        rw [hrun]
        refine ⟨List.chain'_singleton _, fun c hc u hu => ?_⟩
        rcases List.mem_singleton.mp hu with rfl
        exact hc e (List.mem_cons_self _ _)
      | some p =>
        obtain ⟨evs, s'⟩ := p
        obtain ⟨hr', hd', hsp⟩ := doEvent_step e s evs s' hdo hr hd
        have hhead := (List.pairwise_cons.mp hq).1
        have htail := (List.pairwise_cons.mp hq).2
        have hq' := foldl_pqAdd_pairwise evs rest htail
        obtain ⟨hchain, hbound⟩ :=
          ih (evs.foldl (pqAdd Ev.timestamp) rest) s' hr' hd' hq'
        have hrun : runLoop (n + 1) (e :: rest) s =
            e.timestamp :: runLoop n (evs.foldl (pqAdd Ev.timestamp) rest)
              s' := by
          rw [runLoop]
          dsimp only [pqRemove]
          rw [hdo]
        rw [hrun]
        have hqb : ∀ x ∈ evs.foldl (pqAdd Ev.timestamp) rest,
            e.timestamp ≤ x.timestamp := by
          intro x hx
          rcases foldl_pqAdd_mem evs rest x hx with h | h
          · exact hhead x h
          · exact hsp x h
        constructor
        · rw [List.chain'_cons']
          refine ⟨fun b hb => ?_, hchain⟩
          exact hbound e.timestamp hqb b (List.mem_of_mem_head? hb)
        · intro c hc u hu
          rcases List.mem_cons.mp hu with rfl | hu
          · exact hc e (List.mem_cons_self _ _)
          · refine hbound c ?_ u hu
            intro x hx
            rcases foldl_pqAdd_mem evs rest x hx with h | h
            · exact hc x (List.mem_cons_of_mem _ h)
            · exact le_trans (hc e (List.mem_cons_self _ _)) (hsp x h)

/-- C10: in any run of `Simulation.run` whose initial events have
non-negative timestamps, whose riders all have non-negative patience and
whose drivers all have positive speed, the events are dequeued and
processed in non-decreasing timestamp order. -/
theorem run_trace_monotone (fuel : Nat) (initial : List Ev) (s : SimState)
    (h0 : ∀ e ∈ initial, 0 ≤ e.timestamp)
    (hr : ridersOK s) (hd : driversOK s) :
    (runSim fuel initial s).Chain' (· ≤ ·) := by
  rw [runSim]
  exact (runLoop_mono fuel (initial.foldl (pqAdd Ev.timestamp) []) s hr hd
    (foldl_pqAdd_pairwise initial [] List.Pairwise.nil)).1

/-- The doctest scenario of simulation.py: one rider, one driver. -/
def state10 : SimState :=
  ⟨fun _ => ⟨"Bathe", RStatus.waiting, 5, ⟨1, 2⟩, ⟨5, 8⟩⟩,
   fun _ => DriverObj.make "Atom" ⟨0, 0⟩ 1, [], [], []⟩

theorem run_trace_monotone_witness :
    runSim 10 [Ev.riderRequest 0 0, Ev.driverRequest 1 0] state10 =
      [0, 1, 4, 5, 14, 14] ∧
    (runSim 10 [Ev.riderRequest 0 0, Ev.driverRequest 1 0]
      state10).Chain' (· ≤ ·) :=
  ⟨rfl, run_trace_monotone 10 [Ev.riderRequest 0 0, Ev.driverRequest 1 0]
    state10
    (by intro e he; rcases List.mem_cons.mp he with rfl | he
        · decide
        · rcases List.mem_singleton.mp he with rfl; decide)
    (fun i => by show (0 : Int) ≤ 5; decide)
    (fun i => by show (0 : Int) < 1; decide)⟩
